import Mathlib

/-!
Shallow embedding of src/modules/task_3/kandrin_a_strongin_method/strongin_method.cpp:
the Strongin method for one-dimensional global minimization, with an MPI-style
deterministic work distribution.  Doubles are modelled by exact rationals; the
C++ sentinel -DBL_MAX is the corresponding rational constant; std::vector is
modelled by List; a failed assert and a thrown std::out_of_range are modelled
by explicit error values.
-/

/-- One sub-interval of the search domain (struct Segment). -/
structure Segment where
  begin : ℚ
  «end» : ℚ
  deriving DecidableEq

/-- The value of the C++ constant DBL_MAX, as an exact rational. -/
def DBL_MAX : ℚ := 2 ^ 1024 - 2 ^ 971

/-- The per-segment quantity abs(zDif / yDif) computed inside Calculate_M. -/
def ratioOf (f : ℚ → ℚ) (s : Segment) : ℚ :=
  |(f s.«end» - f s.begin) / (s.«end» - s.begin)|

/-- One pass of the accumulation loop of Calculate_M (Sequential). -/
def calcMStep (f : ℚ → ℚ) (M : ℚ) (s : Segment) : ℚ :=
  if ratioOf f s > M then ratioOf f s else M

/-- Calculate_M, sequential version: fold of the loop body over the segments,
accumulator initialized to 0. -/
def Calculate_M (f : ℚ → ℚ) (y : List Segment) : ℚ :=
  y.foldl (calcMStep f) 0

/-- Calculate_m: the asserts (M at least 0, r exceeding 1) are modelled by
returning none (abnormal termination) when violated. -/
def Calculate_m (M r : ℚ) : Option ℚ :=
  if 0 ≤ M ∧ 1 < r then some (if M = 0 then 1 else r * M) else none

/-- The characteristic R of one segment, as computed in the scan loop of
CalculateIndexOfMaxR (Sequential). -/
def charR (f : ℚ → ℚ) (m : ℚ) (s : Segment) : ℚ :=
  m * (s.«end» - s.begin) +
    (f s.«end» - f s.begin) * (f s.«end» - f s.begin) / (m * (s.«end» - s.begin)) -
    2 * (f s.«end» + f s.begin)

/-- The scan loop of CalculateIndexOfMaxR (Sequential): i is the index of the
head segment, acc the running (maxR, maxIndex) pair. -/
def CalculateIndexOfMaxR_aux (f : ℚ → ℚ) (m : ℚ) : ℤ → ℚ × ℤ → List Segment → ℚ × ℤ
  | _, acc, [] => acc
  | i, acc, s :: rest =>
    CalculateIndexOfMaxR_aux f m (i + 1)
      (if charR f m s > acc.1 then (charR f m s, i) else acc) rest

/-- CalculateIndexOfMaxR, sequential version: scan from index 0 with sentinel
accumulator (-DBL_MAX, -1). -/
def CalculateIndexOfMaxR_Sequential (f : ℚ → ℚ) (m : ℚ) (y : List Segment) : ℚ × ℤ :=
  CalculateIndexOfMaxR_aux f m 0 (-DBL_MAX, -1) y

/-- The remainder-distribution loop of the WorkSplitter constructor (the
work > workerCount branch): while work is nonzero, assign work / workerCount
to the current worker, subtract it, and decrement workerCount.  Reaching
workerCount = 0 with work nonzero would divide by zero in the source; the
model stops there. -/
def distributeLoop : ℕ → ℕ → List ℕ
  | _, 0 => []
  | work, c + 1 =>
    if work = 0 then []
    else work / (c + 1) :: distributeLoop (work - work / (c + 1)) c

/-- class WorkSplitter. -/
structure WorkSplitter where
  m_workDistribution : List ℕ
  deriving DecidableEq

/-- WorkSplitter constructor: vector of workerCount zeros; if
work <= workerCount the first work entries become 1, otherwise the
remainder-distribution loop fills a prefix. -/
def WorkSplitter.init (work workerCount : ℕ) : WorkSplitter :=
  if work ≤ workerCount then
    ⟨List.replicate work 1 ++ List.replicate (workerCount - work) 0⟩
  else
    ⟨distributeLoop work workerCount ++
      List.replicate (workerCount - (distributeLoop work workerCount).length) 0⟩

/-- WorkSplitter::GetPartWork. -/
def WorkSplitter.GetPartWork (ws : WorkSplitter) (workerNumber : ℕ) : ℕ :=
  ws.m_workDistribution.getD workerNumber 0

/-- WorkSplitter::GetPrevPartWork: sum of the distribution entries of workers
0 .. workerNumber - 1. -/
def WorkSplitter.GetPrevPartWork (ws : WorkSplitter) (workerNumber : ℕ) : ℕ :=
  (ws.m_workDistribution.take workerNumber).sum

/-- std::max_element scan (comparison on first components, strict less): keeps
the first element no later element strictly exceeds. -/
def maxElemIdxAux : List (ℚ × ℤ) → ℕ → ℚ → ℕ → ℕ
  | [], bestIdx, _, _ => bestIdx
  | p :: rest, bestIdx, bestVal, cur =>
    if bestVal < p.1 then maxElemIdxAux rest cur p.1 (cur + 1)
    else maxElemIdxAux rest bestIdx bestVal (cur + 1)

/-- Index returned by std::max_element over a list of (value, index) pairs. -/
def maxElemIdx : List (ℚ × ℤ) → ℕ
  | [] => 0
  | p :: rest => maxElemIdxAux rest 0 p.1 1

/-- CalculateIndexOfMaxR, parallel version, as observed at the coordinator:
the segment list is partitioned by a WorkSplitter, each worker runs the
sequential scan on its contiguous slice (workers with zero work contribute the
sentinel pair, which is also what the coordinator pre-fills for them), the
coordinator takes the first maximum by first component and adds the
GetPrevPartWork offset of that worker to the winning local index. -/
def CalculateIndexOfMaxR_Parallel (f : ℚ → ℚ) (m : ℚ) (y : List Segment)
    (procCount : ℕ) : ℚ × ℤ :=
  let ws := WorkSplitter.init y.length procCount
  let results := (List.range procCount).map (fun procNum =>
    CalculateIndexOfMaxR_Sequential f m
      ((y.drop (ws.GetPrevPartWork procNum)).take (ws.GetPartWork procNum)))
  let k := maxElemIdx results
  let r := results.getD k (-DBL_MAX, -1)
  (r.1, r.2 + (ws.GetPrevPartWork k : ℤ))

/-- Outcome of one iteration of the GetMin loop body. -/
inductive StepResult where
  | next (y : List Segment) : StepResult
  | done (v : ℚ) : StepResult
  | error : StepResult
  deriving DecidableEq

/-- Default segment used for a guarded element access. -/
def segDflt : Segment := ⟨0, 0⟩

/-- One iteration of the loop body of GetMin (r fixed at 2): derive M and m,
select the winning segment; a failed assert in Calculate_m or an out-of-range
winning index (y.at throws on the -1 sentinel) is an error; a winning segment
shorter than epsilon returns f of its end; otherwise the winning segment is
split at the new interior point yn. -/
def GetMinStep (f : ℚ → ℚ) (ε : ℚ) (y : List Segment) : StepResult :=
  match Calculate_m (Calculate_M f y) 2 with
  | none => .error
  | some m =>
    let p := CalculateIndexOfMaxR_Sequential f m y
    if 0 ≤ p.2 ∧ p.2 < (y.length : ℤ) then
      let s := y.getD p.2.toNat segDflt
      if s.«end» - s.begin < ε then .done (f s.«end»)
      else
        let yn := s.begin + (s.«end» - s.begin) / 2 + (f s.«end» - f s.begin) / (2 * m)
        .next ((y ++ [Segment.mk s.begin yn]).set p.2.toNat (Segment.mk yn s.«end»))
    else .error

/-- Result of GetMin: a computed value, the NAN sentinel of the exhausted
iteration cap, or abnormal termination. -/
inductive GetMinResult where
  | value (v : ℚ) : GetMinResult
  | nan : GetMinResult
  | thrown : GetMinResult
  deriving DecidableEq

/-- The iteration loop of GetMin, counting down the remaining iterations from
the cap; when the cap is exhausted the result is the NAN sentinel. -/
def GetMinLoop (f : ℚ → ℚ) (ε : ℚ) : ℕ → List Segment → GetMinResult
  | 0, _ => .nan
  | fuel + 1, y =>
    match GetMinStep f ε y with
    | .done v => .value v
    | .error => .thrown
    | .next y2 => GetMinLoop f ε fuel y2

/-- GetMin: run the loop from the single segment (a, b) with the iteration cap
100000. -/
def GetMin (f : ℚ → ℚ) (a b ε : ℚ) : GetMinResult :=
  GetMinLoop f ε 100000 [⟨a, b⟩]

/-- The segment list after n consecutive non-terminating iterations of the
GetMin loop body, when all n iterations do produce a next state. -/
def traceN (f : ℚ → ℚ) (ε : ℚ) : ℕ → List Segment → Option (List Segment)
  | 0, y => some y
  | n + 1, y =>
    match GetMinStep f ε y with
    | .next y2 => traceN f ε n y2
    | _ => none

/-- The segment-collection invariant: every segment is properly ordered, and
each point of the half-open interval (a, b] is covered by exactly one segment
(no gaps, no overlaps) while points outside are covered by none. -/
def SegInv (a b : ℚ) (y : List Segment) : Prop :=
  (∀ s ∈ y, s.begin < s.«end») ∧
  ∀ x : ℚ, y.countP (fun s => decide (s.begin < x ∧ x ≤ s.«end»)) =
    if a < x ∧ x ≤ b then 1 else 0

/-- The contiguous slices of y cut by a list of part sizes. -/
def slicesOf (y : List Segment) : List ℕ → List (List Segment)
  | [] => []
  | a :: rest => y.take a :: slicesOf (y.drop a) rest

/-- Coordinator-side gather of per-slice sequential scan results, combined
left to right with the offset of each slice carried along. -/
def gatherFold (f : ℚ → ℚ) (m : ℚ) : ℚ × ℤ → ℤ → List (List Segment) → ℚ × ℤ
  | acc, _, [] => acc
  | acc, off, l :: rest =>
    gatherFold f m
      (if (CalculateIndexOfMaxR_Sequential f m l).1 > acc.1 then
        ((CalculateIndexOfMaxR_Sequential f m l).1,
          (CalculateIndexOfMaxR_Sequential f m l).2 + off)
      else acc) (off + l.length) rest

/-- Running best value of the std::max_element scan. -/
def maxElemVal : List (ℚ × ℤ) → ℚ → ℚ
  | [], bestVal => bestVal
  | p :: rest, bestVal => maxElemVal rest (if bestVal < p.1 then p.1 else bestVal)

/-- Total length of a list of slices. -/
def lenSum (L : List (List Segment)) : ℕ := (L.map List.length).sum

/-- Running best value of the max-element scan, starting from the head. -/
def mviF : List (ℚ × ℤ) → ℚ
  | [] => -DBL_MAX
  | p :: rest => maxElemVal rest p.1

/-- The value of m derived inside the GetMin loop body (r = 2). -/
def mOf (f : ℚ → ℚ) (y : List Segment) : ℚ :=
  if Calculate_M f y = 0 then 1 else 2 * Calculate_M f y

/-- The new interior point yn computed by the GetMin loop body for the
winning segment at position k. -/
def ynOf (f : ℚ → ℚ) (y : List Segment) (k : ℕ) : ℚ :=
  (y.getD k segDflt).begin + ((y.getD k segDflt).«end» - (y.getD k segDflt).begin) / 2 +
    (f (y.getD k segDflt).«end» - f (y.getD k segDflt).begin) / (2 * mOf f y)

lemma distributeLoop_length_le : ∀ c u, (distributeLoop u c).length ≤ c := by
  intro c
  induction c with
  | zero => intro u; simp [distributeLoop]
  | succ c ih =>
    intro u
    by_cases hu : u = 0
    · simp [distributeLoop, hu]
    · simp only [distributeLoop, if_neg hu, List.length_cons]
      exact Nat.succ_le_succ (ih _)

lemma distributeLoop_rem_lt (c u : ℕ) (hc : 1 ≤ c) (hlt : c + 1 < u) :
    c < u - u / (c + 1) := by
  have hdm := Nat.div_add_mod u (c + 1)
  have hexp0 : (c + 1) * (u / (c + 1)) = c * (u / (c + 1)) + u / (c + 1) := by ring
  have hdm2 : c * (u / (c + 1)) + u / (c + 1) + u % (c + 1) = u := by omega
  have hq : 1 ≤ u / (c + 1) := by
    rw [Nat.one_le_div_iff (by omega)]; omega
  rcases Nat.lt_or_ge (u / (c + 1)) 2 with h2 | h2
  · have hq1 : u / (c + 1) = 1 := by omega
    rw [hq1] at hdm2 ⊢
    omega
  · have h3 := Nat.mul_le_mul_left c h2
    omega

lemma distributeLoop_len_sum : ∀ c u, 1 ≤ c → c < u →
    (distributeLoop u c).length = c ∧ (distributeLoop u c).sum = u := by
  intro c
  induction c with
  | zero => omega
  | succ c ih =>
    intro u _ hlt
    have hu : u ≠ 0 := by omega
    simp only [distributeLoop, if_neg hu, List.length_cons, List.sum_cons]
    have hq := Nat.div_le_self u (c + 1)
    rcases Nat.eq_zero_or_pos c with hc0 | hc0
    · subst hc0
      simp [distributeLoop, Nat.div_one]
    · obtain ⟨hl, hs⟩ := ih (u - u / (c + 1)) hc0 (distributeLoop_rem_lt c u hc0 hlt)
      have hq1 : 1 ≤ u / (c + 1) := by
        rw [Nat.one_le_div_iff (by omega)]; omega
      omega

lemma distributeLoop_getD : ∀ c u, 1 ≤ c → c < u → ∀ i, i < c →
    (distributeLoop u c).getD i 0 = if i < c - u % c then u / c else u / c + 1 := by
  intro c
  induction c with
  | zero => omega
  | succ c ih =>
    intro u _ hlt i hi
    have hu : u ≠ 0 := by omega
    have hdm := Nat.div_add_mod u (c + 1)
    have hexp0 : (c + 1) * (u / (c + 1)) = c * (u / (c + 1)) + u / (c + 1) := by ring
    have hdm2 : c * (u / (c + 1)) + u / (c + 1) + u % (c + 1) = u := by omega
    have hmod := Nat.mod_lt u (show 0 < c + 1 by omega)
    simp only [distributeLoop, if_neg hu]
    match i with
    | 0 =>
      have hpos : 0 < c + 1 - u % (c + 1) := by omega
      simp only [List.getD_cons_zero, if_pos hpos]
    | j + 1 =>
      have hj : j < c := by omega
      have hc0 : 1 ≤ c := by omega
      have hrem := distributeLoop_rem_lt c u hc0 hlt
      rw [List.getD_cons_succ, ih (u - u / (c + 1)) hc0 hrem j hj]
      rcases Nat.lt_or_ge (u % (c + 1)) c with hr | hr
      · have hu2 : u - u / (c + 1) = u % (c + 1) + c * (u / (c + 1)) := by omega
        rw [hu2, Nat.add_mul_mod_self_left, Nat.add_mul_div_left _ _ (by omega : 0 < c),
          Nat.mod_eq_of_lt hr, Nat.div_eq_of_lt hr]
        simp only [Nat.zero_add]
        split_ifs with h1 h2 h2 <;> omega
      · have hrc : u % (c + 1) = c := by omega
        have hexp : c * (u / (c + 1) + 1) = c * (u / (c + 1)) + c := by ring
        have hu2 : u - u / (c + 1) = c * (u / (c + 1) + 1) := by omega
        rw [hu2, Nat.mul_mod_right, Nat.mul_div_cancel_left _ (by omega : 0 < c)]
        have h1 : j < c - 0 := by omega
        have h2 : ¬ (j + 1 < c + 1 - u % (c + 1)) := by omega
        simp only [if_pos h1, if_neg h2]

lemma getD_replicate_append (u k i : ℕ) :
    ((List.replicate u (1:ℕ)) ++ List.replicate k 0).getD i 0 = if i < u then 1 else 0 := by
  induction u generalizing i with
  | zero =>
    simp only [List.replicate, List.nil_append, Nat.not_lt_zero, if_false]
    induction k generalizing i with
    | zero => simp
    | succ k ihk =>
      match i with
      | 0 => simp [List.replicate]
      | j + 1 => simp only [List.replicate, List.getD_cons_succ]; exact ihk j
  | succ u ihu =>
    match i with
    | 0 => simp [List.replicate]
    | j + 1 =>
      simp only [List.replicate, List.cons_append, List.getD_cons_succ, ihu j]
      split_ifs with h1 h2 h2 <;> omega

lemma init_dist_of_le (u c : ℕ) (h : u ≤ c) :
    (WorkSplitter.init u c).m_workDistribution =
      List.replicate u 1 ++ List.replicate (c - u) 0 := by
  simp [WorkSplitter.init, h]

lemma init_dist_of_gt (u c : ℕ) (hc : 1 ≤ c) (h : c < u) :
    (WorkSplitter.init u c).m_workDistribution = distributeLoop u c := by
  have hl := (distributeLoop_len_sum c u hc h).1
  simp only [WorkSplitter.init, if_neg (by omega : ¬ u ≤ c)]
  rw [hl, Nat.sub_self]
  simp

lemma init_length (u c : ℕ) : (WorkSplitter.init u c).m_workDistribution.length = c := by
  by_cases h : u ≤ c
  · simp only [init_dist_of_le u c h, List.length_append, List.length_replicate]
    omega
  · have hle := distributeLoop_length_le c u
    simp only [WorkSplitter.init, if_neg h, List.length_append, List.length_replicate]
    omega

lemma init_sum (u c : ℕ) (hc : 1 ≤ c) : (WorkSplitter.init u c).m_workDistribution.sum = u := by
  by_cases h : u ≤ c
  · simp [init_dist_of_le u c h, List.sum_replicate, smul_eq_mul]
  · rw [init_dist_of_gt u c hc (by omega)]
    exact (distributeLoop_len_sum c u hc (by omega)).2

lemma init_getD_of_le (u c i : ℕ) (h : u ≤ c) :
    (WorkSplitter.init u c).GetPartWork i = if i < u then 1 else 0 := by
  rw [WorkSplitter.GetPartWork, init_dist_of_le u c h, getD_replicate_append]

lemma init_getD_of_gt (u c i : ℕ) (hc : 0 < c) (hcu : c < u) (hi : i < c) :
    (WorkSplitter.init u c).GetPartWork i = if i < c - u % c then u / c else u / c + 1 := by
  rw [WorkSplitter.GetPartWork, init_dist_of_gt u c hc hcu]
  exact distributeLoop_getD c u hc hcu i hi

/-- C2, counterexample: with 7 units over 3 workers the remainder is 1, so the
claim says worker 0 (index 0 < 7 mod 3) gets the ceiling 3 = (7+3-1)/3; the
code gives worker 0 only 7/3 = 2 units (the distribution is [2, 2, 3]). -/
theorem c2_counterexample :
    (WorkSplitter.init 7 3).GetPartWork 0 ≠ (7 + 3 - 1) / 3 ∧ 3 < 7 ∧ 0 < 3 ∧ 0 < 7 % 3 := by
  decide

/-- C2, amended: for unitCount > workerCount > 0 the repeated-integer-division
policy biases the remainder toward LATER workers: worker i receives the floor
unitCount / workerCount when i < workerCount - (unitCount mod workerCount) and
the ceiling (floor + 1) otherwise. -/
theorem c2_remainder_to_later_workers (u c i : ℕ) (hcu : c < u) (hc : 0 < c) (hi : i < c) :
    (WorkSplitter.init u c).GetPartWork i = if i < c - u % c then u / c else u / c + 1 :=
  init_getD_of_gt u c i hc hcu hi

/-- C2, witness for the amended claim at unitCount 7, workerCount 3, worker 2. -/
theorem c2_witness :
    (WorkSplitter.init 7 3).GetPartWork 2 = if 2 < 3 - 7 % 3 then 7 / 3 else 7 / 3 + 1 :=
  c2_remainder_to_later_workers 7 3 2 (by decide) (by decide) (by decide)

/-- C8: for positive unitCount and workerCount the distribution sums exactly to
unitCount, GetPrevPartWork at workerCount equals unitCount, and every entry is
within one unit of unitCount / workerCount. -/
theorem c8_distribution_sums (u c : ℕ) (_hu : 0 < u) (hc : 0 < c) :
    (WorkSplitter.init u c).m_workDistribution.sum = u ∧
    (WorkSplitter.init u c).GetPrevPartWork c = u ∧
    ∀ i, i < c → (WorkSplitter.init u c).GetPartWork i ≤ u / c + 1 ∧
      u / c ≤ (WorkSplitter.init u c).GetPartWork i + 1 := by
  refine ⟨init_sum u c hc, ?_, ?_⟩
  · rw [WorkSplitter.GetPrevPartWork,
      List.take_of_length_le (le_of_eq (init_length u c))]
    exact init_sum u c hc
  · intro i hi
    by_cases h : u ≤ c
    · rw [init_getD_of_le u c i h]
      have hdiv : u / c ≤ 1 := by
        calc u / c ≤ c / c := Nat.div_le_div_right h
        _ = 1 := Nat.div_self hc
      split_ifs
      · exact ⟨Nat.le_add_left 1 _, hdiv.trans (by norm_num)⟩
      · exact ⟨Nat.zero_le _, by simpa using hdiv⟩
    · rw [init_getD_of_gt u c i hc (by omega) hi]
      split_ifs
      · exact ⟨Nat.le_succ _, Nat.le_succ _⟩
      · exact ⟨le_refl _, (Nat.le_succ _).trans (Nat.le_succ _)⟩

/-- C8, witness at unitCount 7, workerCount 3. -/
theorem c8_witness :
    (WorkSplitter.init 7 3).m_workDistribution.sum = 7 ∧
    (WorkSplitter.init 7 3).GetPrevPartWork 3 = 7 := by
  have h := c8_distribution_sums 7 3 (by decide) (by decide)
  exact ⟨h.1, h.2.1⟩

/-- C9: the distribution loop of the constructor is well defined for every
unitCount and positive workerCount (the Lean model is structurally recursive,
so total); it performs at most workerCount passes, so every write lands at an
index in [0, workerCount); and in the unitCount > workerCount branch each pass
assigns at least one unit (work / workerCount is at least 1, so the remaining
work strictly decreases), the loop performs exactly workerCount passes, and it
distributes all the work. -/
theorem c9_constructor_terminates (u c : ℕ) (hc : 1 ≤ c) :
    (WorkSplitter.init u c).m_workDistribution.length = c ∧
    (distributeLoop u c).length ≤ c ∧
    (c < u → 1 ≤ u / c ∧ (distributeLoop u c).length = c ∧ (distributeLoop u c).sum = u) := by
  refine ⟨init_length u c, distributeLoop_length_le c u,
    fun h => ⟨?_, (distributeLoop_len_sum c u hc h).1, (distributeLoop_len_sum c u hc h).2⟩⟩
  rw [Nat.one_le_div_iff (by omega)]
  omega

/-- C9, witness at unitCount 7, workerCount 3. -/
theorem c9_witness :
    (WorkSplitter.init 7 3).m_workDistribution.length = 3 ∧
    1 ≤ 7 / 3 ∧ (distributeLoop 7 3).length = 3 ∧ (distributeLoop 7 3).sum = 7 ∧
    (distributeLoop 7 3).length ≤ 3 := by
  have h := c9_constructor_terminates 7 3 (by decide)
  exact ⟨h.1, (h.2.2 (by decide)).1, (h.2.2 (by decide)).2.1, (h.2.2 (by decide)).2.2, h.2.1⟩

lemma calcMStep_eq_max (f : ℚ → ℚ) (M : ℚ) (s : Segment) :
    calcMStep f M s = max M (ratioOf f s) := by
  rw [calcMStep]
  rcases le_or_lt (ratioOf f s) M with h | h
  · rw [if_neg (not_lt.mpr h), max_eq_left h]
  · rw [if_pos h, max_eq_right h.le]

lemma foldl_calcM_init_le (f : ℚ → ℚ) :
    ∀ (l : List Segment) (a : ℚ), a ≤ l.foldl (calcMStep f) a := by
  intro l
  induction l with
  | nil => intro a; exact le_refl a
  | cons s rest ih =>
    intro a
    calc a ≤ calcMStep f a s := by rw [calcMStep_eq_max]; exact le_max_left _ _
    _ ≤ rest.foldl (calcMStep f) (calcMStep f a s) := ih _

lemma foldl_calcM_le_of_mem (f : ℚ → ℚ) :
    ∀ (l : List Segment) (a : ℚ) (s : Segment), s ∈ l →
      ratioOf f s ≤ l.foldl (calcMStep f) a := by
  intro l
  induction l with
  | nil => intro a s hs; cases hs
  | cons t rest ih =>
    intro a s hs
    rcases List.mem_cons.mp hs with h | h
    · subst h
      calc ratioOf f s ≤ calcMStep f a s := by
            rw [calcMStep_eq_max]; exact le_max_right _ _
      _ ≤ rest.foldl (calcMStep f) (calcMStep f a s) := foldl_calcM_init_le f rest _
    · exact ih _ s h

lemma foldl_calcM_cases (f : ℚ → ℚ) :
    ∀ (l : List Segment) (a : ℚ), l.foldl (calcMStep f) a = a ∨
      ∃ s ∈ l, l.foldl (calcMStep f) a = ratioOf f s := by
  intro l
  induction l with
  | nil => intro a; exact Or.inl rfl
  | cons t rest ih =>
    intro a
    rcases ih (calcMStep f a t) with h | ⟨s, hs, he⟩
    · rw [List.foldl_cons, h, calcMStep_eq_max]
      rcases le_or_lt (ratioOf f t) a with h2 | h2
      · exact Or.inl (max_eq_left h2)
      · exact Or.inr ⟨t, List.mem_cons_self t rest, max_eq_right h2.le⟩
    · exact Or.inr ⟨s, List.mem_cons_of_mem t hs, he⟩

lemma Calculate_M_nonneg (f : ℚ → ℚ) (y : List Segment) : 0 ≤ Calculate_M f y :=
  foldl_calcM_init_le f y 0

lemma ratioOf_le_Calculate_M (f : ℚ → ℚ) (y : List Segment) (s : Segment) (hs : s ∈ y) :
    ratioOf f s ≤ Calculate_M f y :=
  foldl_calcM_le_of_mem f y 0 s hs

lemma ratioOf_eq (f : ℚ → ℚ) (s : Segment) (h : s.begin < s.«end») :
    ratioOf f s = |f s.«end» - f s.begin| / (s.«end» - s.begin) := by
  rw [ratioOf, abs_div, abs_of_pos (sub_pos.mpr h)]

/-- C6: on a collection of proper segments, Calculate_M (Sequential) returns 0
for the empty collection, bounds the ratio of every segment from above, and
equals the ratio of some segment of a nonempty collection: it is exactly the
maximum of abs(f(end) - f(begin)) / (end - begin) over the segments. -/
theorem c6_calculate_M (f : ℚ → ℚ) (y : List Segment)
    (hinv : ∀ s ∈ y, s.begin < s.«end») :
    (y = [] → Calculate_M f y = 0) ∧
    (∀ s ∈ y, |f s.«end» - f s.begin| / (s.«end» - s.begin) ≤ Calculate_M f y) ∧
    (y ≠ [] → ∃ s ∈ y, Calculate_M f y = |f s.«end» - f s.begin| / (s.«end» - s.begin)) := by
  refine ⟨?_, ?_, ?_⟩
  · intro h; subst h; rfl
  · intro s hs
    rw [← ratioOf_eq f s (hinv s hs)]
    exact ratioOf_le_Calculate_M f y s hs
  · intro hne
    rcases foldl_calcM_cases f y 0 with h | ⟨s, hs, he⟩
    · match y, hne with
      | s :: rest, _ =>
        refine ⟨s, List.mem_cons_self s rest, ?_⟩
        have h1 := ratioOf_le_Calculate_M f (s :: rest) s (List.mem_cons_self s rest)
        have h2 : Calculate_M f (s :: rest) = 0 := h
        have h3 : 0 ≤ ratioOf f s := abs_nonneg _
        rw [← ratioOf_eq f s (hinv s (List.mem_cons_self s rest)), h2]
        exact le_antisymm h3 (h2 ▸ h1)
    · exact ⟨s, hs, by rw [Calculate_M, he, ratioOf_eq f s (hinv s hs)]⟩

/-- C6, witness: on the single proper segment (0, 1) with the identity
function, Calculate_M evaluates to the claimed maximum 1. -/
theorem c6_witness : Calculate_M (fun x => x) [⟨0, 1⟩] = 1 := by
  obtain ⟨s, hs, he⟩ := (c6_calculate_M (fun x => x) [⟨0, 1⟩]
    (by intro s hs; simp at hs; subst hs; decide)).2.2 (by simp)
  simp at hs
  subst hs
  rw [he]
  norm_num

/-- C7: under the asserted preconditions M at least 0 and r greater than 1,
Calculate_m returns 1 when M = 0 and r * M otherwise, and the returned value
is strictly positive; violating either precondition terminates abnormally
(modelled as none) instead of returning a value. -/
theorem c7_calculate_m (M r : ℚ) :
    (0 ≤ M → 1 < r → Calculate_m M r = some (if M = 0 then 1 else r * M) ∧
      (0:ℚ) < (if M = 0 then 1 else r * M)) ∧
    ((¬ 0 ≤ M ∨ ¬ 1 < r) → Calculate_m M r = none) := by
  constructor
  · intro h1 h2
    refine ⟨by rw [Calculate_m, if_pos ⟨h1, h2⟩], ?_⟩
    split_ifs with h0
    · norm_num
    · exact mul_pos (zero_lt_one.trans h2) (lt_of_le_of_ne h1 (Ne.symm h0))
  · intro h
    rw [Calculate_m, if_neg]
    tauto

/-- C7, witness: a valid call (M = 0, r = 2) returns the positive value 1, and
a precondition-violating call (M = -1) terminates abnormally. -/
theorem c7_witness :
    (Calculate_m 0 2 = some (if (0:ℚ) = 0 then 1 else 2 * 0) ∧
      (0:ℚ) < (if (0:ℚ) = 0 then 1 else 2 * 0)) ∧
    Calculate_m (-1) 2 = none :=
  ⟨(c7_calculate_m 0 2).1 (by norm_num) (by norm_num),
    (c7_calculate_m (-1) 2).2 (Or.inl (by norm_num))⟩

/-- C10: the sequential characteristic selector returns the sentinel pair
(-DBL_MAX, -1) on the empty collection; the index component -1 is negative, so
it is not a valid segment position. -/
theorem c10_selector_empty (f : ℚ → ℚ) (m : ℚ) :
    CalculateIndexOfMaxR_Sequential f m [] = (-DBL_MAX, -1) ∧
    (CalculateIndexOfMaxR_Sequential f m []).2 < 0 :=
  ⟨rfl, by show (-1 : ℤ) < 0; decide⟩

lemma aux_append (f : ℚ → ℚ) (m : ℚ) : ∀ (l1 l2 : List Segment) (i : ℤ) (acc : ℚ × ℤ),
    CalculateIndexOfMaxR_aux f m i acc (l1 ++ l2) =
    CalculateIndexOfMaxR_aux f m (i + l1.length) (CalculateIndexOfMaxR_aux f m i acc l1) l2 := by
  intro l1
  induction l1 with
  | nil => intro l2 i acc; simp [CalculateIndexOfMaxR_aux]
  | cons s rest ih =>
    intro l2 i acc
    simp only [List.cons_append, CalculateIndexOfMaxR_aux, List.append_eq]
    rw [ih]
    congr 1
    · push_cast [List.length_cons]
      ring

lemma aux_fst_mono (f : ℚ → ℚ) (m : ℚ) : ∀ (l : List Segment) (i : ℤ) (acc : ℚ × ℤ),
    acc.1 ≤ (CalculateIndexOfMaxR_aux f m i acc l).1 := by
  intro l
  induction l with
  | nil => intro i acc; exact le_refl _
  | cons s rest ih =>
    intro i acc
    simp only [CalculateIndexOfMaxR_aux]
    rcases le_or_lt (charR f m s) acc.1 with h | h
    · rw [if_neg (not_lt.mpr h)]
      exact ih _ _
    · rw [if_pos h]
      exact h.le.trans (ih (i + 1) (charR f m s, i))

lemma aux_stick (f : ℚ → ℚ) (m : ℚ) : ∀ (l : List Segment) (i : ℤ) (acc : ℚ × ℤ),
    (CalculateIndexOfMaxR_aux f m i acc l).1 = acc.1 →
    CalculateIndexOfMaxR_aux f m i acc l = acc := by
  intro l
  induction l with
  | nil => intro i acc _; rfl
  | cons s rest ih =>
    intro i acc heq
    simp only [CalculateIndexOfMaxR_aux] at heq ⊢
    rcases le_or_lt (charR f m s) acc.1 with h | h
    · rw [if_neg (not_lt.mpr h)] at heq ⊢
      exact ih _ _ heq
    · rw [if_pos h] at heq
      exfalso
      have h2 := aux_fst_mono f m rest (i + 1) (charR f m s, i)
      rw [heq] at h2
      exact absurd (lt_of_lt_of_le h h2) (lt_irrefl _)

lemma aux_shift (f : ℚ → ℚ) (m : ℚ) : ∀ (l : List Segment) (i d : ℤ) (v : ℚ) (j : ℤ),
    CalculateIndexOfMaxR_aux f m (i + d) (v, j + d) l =
    ((CalculateIndexOfMaxR_aux f m i (v, j) l).1,
      (CalculateIndexOfMaxR_aux f m i (v, j) l).2 + d) := by
  intro l
  induction l with
  | nil => intro i d v j; rfl
  | cons s rest ih =>
    intro i d v j
    simp only [CalculateIndexOfMaxR_aux]
    by_cases h : v < charR f m s
    · rw [if_pos h, if_pos h]
      have hoff : i + d + 1 = i + 1 + d := by ring
      rw [hoff]
      exact ih (i + 1) d (charR f m s) i
    · rw [if_neg h, if_neg h]
      have hoff : i + d + 1 = i + 1 + d := by ring
      rw [hoff]
      exact ih (i + 1) d v j

lemma aux_fst_irrel (f : ℚ → ℚ) (m : ℚ) : ∀ (l : List Segment) (i : ℤ) (v : ℚ) (j k : ℤ),
    (CalculateIndexOfMaxR_aux f m i (v, j) l).1 = (CalculateIndexOfMaxR_aux f m i (v, k) l).1 ∧
    ((CalculateIndexOfMaxR_aux f m i (v, j) l).1 ≠ v →
      CalculateIndexOfMaxR_aux f m i (v, j) l = CalculateIndexOfMaxR_aux f m i (v, k) l) := by
  intro l
  induction l with
  | nil => exact fun i v j k => ⟨rfl, fun h => absurd rfl h⟩
  | cons s rest ih =>
    intro i v j k
    simp only [CalculateIndexOfMaxR_aux]
    by_cases h : v < charR f m s
    · rw [if_pos h, if_pos h]
      exact ⟨rfl, fun _ => rfl⟩
    · rw [if_neg h, if_neg h]
      exact ih (i + 1) v j k

lemma aux_split (f : ℚ → ℚ) (m : ℚ) : ∀ (l : List Segment) (i : ℤ) (acc : ℚ × ℤ),
    -DBL_MAX ≤ acc.1 →
    CalculateIndexOfMaxR_aux f m i acc l =
      if (CalculateIndexOfMaxR_aux f m i (-DBL_MAX, -1) l).1 > acc.1 then
        CalculateIndexOfMaxR_aux f m i (-DBL_MAX, -1) l
      else acc := by
  intro l
  induction l with
  | nil =>
    intro i acc hacc
    simp only [CalculateIndexOfMaxR_aux]
    rw [if_neg (not_lt.mpr hacc)]
  | cons s rest ih =>
    intro i acc hacc
    simp only [CalculateIndexOfMaxR_aux]
    by_cases h1 : acc.1 < charR f m s
    · rw [if_pos h1]
      have hsent : (((-DBL_MAX : ℚ), (-1 : ℤ)) : ℚ × ℤ).1 < charR f m s :=
        lt_of_le_of_lt hacc h1
      rw [if_pos hsent]
      have hmono := aux_fst_mono f m rest (i + 1) (charR f m s, i)
      rw [if_pos (lt_of_lt_of_le h1 hmono)]
    · rw [if_neg h1]
      rcases le_or_lt (charR f m s) (-DBL_MAX) with h2 | h2
      · rw [if_neg (not_lt.mpr h2 :
          ¬ (((-DBL_MAX : ℚ), (-1 : ℤ)) : ℚ × ℤ).1 < charR f m s)]
        exact ih (i + 1) acc hacc
      · rw [if_pos (h2 : (((-DBL_MAX : ℚ), (-1 : ℤ)) : ℚ × ℤ).1 < charR f m s)]
        rw [ih (i + 1) acc hacc, ih (i + 1) (charR f m s, i) (le_of_lt h2)]
        by_cases h4 : charR f m s < (CalculateIndexOfMaxR_aux f m (i + 1) (-DBL_MAX, -1) rest).1
        · rw [if_pos h4]
        · rw [if_neg h4]
          have h5 : ¬ acc.1 < (CalculateIndexOfMaxR_aux f m (i + 1) (-DBL_MAX, -1) rest).1 :=
            not_lt.mpr ((not_lt.mp h4).trans (not_lt.mp h1))
          rw [if_neg h5, if_neg h1]

lemma seq_fst_ge (f : ℚ → ℚ) (m : ℚ) (l : List Segment) :
    -DBL_MAX ≤ (CalculateIndexOfMaxR_Sequential f m l).1 :=
  aux_fst_mono f m l 0 (-DBL_MAX, -1)

lemma seq_stick (f : ℚ → ℚ) (m : ℚ) (l : List Segment)
    (h : (CalculateIndexOfMaxR_Sequential f m l).1 = -DBL_MAX) :
    CalculateIndexOfMaxR_Sequential f m l = (-DBL_MAX, -1) :=
  aux_stick f m l 0 (-DBL_MAX, -1) h

lemma aux_sent_offset (f : ℚ → ℚ) (m : ℚ) (l : List Segment) (p : ℤ) :
    (CalculateIndexOfMaxR_aux f m p (-DBL_MAX, -1) l).1 =
      (CalculateIndexOfMaxR_Sequential f m l).1 ∧
    (-DBL_MAX < (CalculateIndexOfMaxR_Sequential f m l).1 →
      CalculateIndexOfMaxR_aux f m p (-DBL_MAX, -1) l =
        ((CalculateIndexOfMaxR_Sequential f m l).1,
         (CalculateIndexOfMaxR_Sequential f m l).2 + p)) := by
  have h4 := aux_shift f m l 0 p (-DBL_MAX) (-1)
  rw [zero_add] at h4
  have h6 := aux_fst_irrel f m l p (-DBL_MAX) (-1) (-1 + p)
  have hfst : (CalculateIndexOfMaxR_aux f m p (-DBL_MAX, -1) l).1 =
      (CalculateIndexOfMaxR_Sequential f m l).1 := by
    rw [h6.1, h4]
    rfl
  refine ⟨hfst, fun hlt => ?_⟩
  have hne : (CalculateIndexOfMaxR_aux f m p (-DBL_MAX, -1) l).1 ≠ -DBL_MAX := by
    rw [hfst]
    exact ne_of_gt hlt
  rw [h6.2 hne, h4]
  rfl

lemma aux_join_eq_gather (f : ℚ → ℚ) (m : ℚ) : ∀ (L : List (List Segment)) (i : ℤ)
    (acc : ℚ × ℤ), -DBL_MAX ≤ acc.1 →
    CalculateIndexOfMaxR_aux f m i acc L.flatten = gatherFold f m acc i L := by
  intro L
  induction L with
  | nil => intro i acc _; rfl
  | cons l rest ih =>
    intro i acc hacc
    rw [List.flatten_cons, aux_append f m l rest.flatten i acc, aux_split f m l i acc hacc]
    simp only [gatherFold]
    have hso := aux_sent_offset f m l i
    rw [hso.1]
    by_cases h : acc.1 < (CalculateIndexOfMaxR_Sequential f m l).1
    · rw [if_pos h, if_pos h, hso.2 (lt_of_le_of_lt hacc h)]
      exact ih (i + ↑l.length)
        ((CalculateIndexOfMaxR_Sequential f m l).1, (CalculateIndexOfMaxR_Sequential f m l).2 + i)
        (hacc.trans (le_of_lt h))
    · rw [if_neg h, if_neg h]
      exact ih (i + ↑l.length) acc hacc

lemma maxElemVal_append : ∀ (l : List (ℚ × ℤ)) (p : ℚ × ℤ) (bv : ℚ),
    maxElemVal (l ++ [p]) bv = if maxElemVal l bv < p.1 then p.1 else maxElemVal l bv := by
  intro l
  induction l with
  | nil => intro p bv; rfl
  | cons q rest ih =>
    intro p bv
    simp only [List.cons_append, maxElemVal]
    exact ih p (if bv < q.1 then q.1 else bv)

lemma maxElemIdxAux_append : ∀ (l : List (ℚ × ℤ)) (p : ℚ × ℤ) (bi : ℕ) (bv : ℚ) (cur : ℕ),
    maxElemIdxAux (l ++ [p]) bi bv cur =
      if maxElemVal l bv < p.1 then cur + l.length else maxElemIdxAux l bi bv cur := by
  intro l
  induction l with
  | nil =>
    intro p bi bv cur
    simp only [List.nil_append, maxElemIdxAux, maxElemVal, List.length_nil, Nat.add_zero]
  | cons q rest ih =>
    intro p bi bv cur
    simp only [List.cons_append, maxElemIdxAux, maxElemVal, List.length_cons, List.append_eq]
    by_cases h : bv < q.1
    · rw [if_pos h, if_pos h, ih]
      split_ifs <;> omega
    · rw [if_neg h, if_neg h, ih]
      split_ifs <;> omega

lemma maxElemIdxAux_bound : ∀ (l : List (ℚ × ℤ)) (bi : ℕ) (bv : ℚ) (cur : ℕ), bi < cur →
    maxElemIdxAux l bi bv cur < cur + l.length ∨ maxElemIdxAux l bi bv cur = bi := by
  intro l
  induction l with
  | nil => intro bi bv cur _; exact Or.inr rfl
  | cons q rest ih =>
    intro bi bv cur hbi
    simp only [maxElemIdxAux, List.length_cons]
    by_cases h : bv < q.1
    · rw [if_pos h]
      rcases ih cur q.1 (cur + 1) (Nat.lt_succ_self cur) with h2 | h2
      · exact Or.inl (by omega)
      · exact Or.inl (by omega)
    · rw [if_neg h]
      rcases ih bi bv (cur + 1) (by omega) with h2 | h2
      · exact Or.inl (by omega)
      · exact Or.inr h2

lemma maxElemIdx_lt : ∀ (rs : List (ℚ × ℤ)), rs ≠ [] → maxElemIdx rs < rs.length := by
  intro rs hne
  match rs, hne with
  | r0 :: rest, _ =>
    simp only [maxElemIdx, List.length_cons]
    rcases maxElemIdxAux_bound rest 0 r0.1 1 Nat.one_pos with h | h
    · omega
    · omega

lemma gatherFold_append (f : ℚ → ℚ) (m : ℚ) : ∀ (L : List (List Segment)) (l : List Segment)
    (acc : ℚ × ℤ) (i : ℤ),
    gatherFold f m acc i (L ++ [l]) =
      if (CalculateIndexOfMaxR_Sequential f m l).1 > (gatherFold f m acc i L).1 then
        ((CalculateIndexOfMaxR_Sequential f m l).1,
         (CalculateIndexOfMaxR_Sequential f m l).2 + (i + (lenSum L : ℤ)))
      else gatherFold f m acc i L := by
  intro L
  induction L with
  | nil =>
    intro l acc i
    simp only [List.nil_append, gatherFold, lenSum, List.map_nil, List.sum_nil,
      Nat.cast_zero, add_zero]
  | cons l0 rest ih =>
    intro l acc i
    simp only [List.cons_append, gatherFold, List.append_eq]
    rw [ih]
    have heq : i + (l0.length : ℤ) + (lenSum rest : ℤ) = i + (lenSum (l0 :: rest) : ℤ) := by
      simp only [lenSum, List.map_cons, List.sum_cons]
      push_cast
      ring
    rw [heq]

lemma maxElemIdx_append (rs : List (ℚ × ℤ)) (r : ℚ × ℤ) (hne : rs ≠ []) :
    maxElemIdx (rs ++ [r]) = if mviF rs < r.1 then rs.length else maxElemIdx rs := by
  match rs, hne with
  | r0 :: rest, _ =>
    simp only [List.cons_append, maxElemIdx, mviF, List.length_cons]
    rw [maxElemIdxAux_append]
    split_ifs with h
    · omega
    · rfl

lemma mviF_append (rs : List (ℚ × ℤ)) (r : ℚ × ℤ) (hne : rs ≠ []) :
    mviF (rs ++ [r]) = if mviF rs < r.1 then r.1 else mviF rs := by
  match rs, hne with
  | r0 :: rest, _ =>
    simp only [List.cons_append, mviF]
    exact maxElemVal_append rest r r0.1

lemma corr_eq_gather (f : ℚ → ℚ) (m : ℚ) : ∀ (L : List (List Segment)), L ≠ [] →
    ((((L.map (CalculateIndexOfMaxR_Sequential f m)).getD
        (maxElemIdx (L.map (CalculateIndexOfMaxR_Sequential f m))) (-DBL_MAX, -1)).1,
      ((L.map (CalculateIndexOfMaxR_Sequential f m)).getD
        (maxElemIdx (L.map (CalculateIndexOfMaxR_Sequential f m))) (-DBL_MAX, -1)).2 +
        ((lenSum (L.take (maxElemIdx (L.map (CalculateIndexOfMaxR_Sequential f m))))) : ℤ)) =
      gatherFold f m (-DBL_MAX, -1) 0 L) ∧
    (gatherFold f m (-DBL_MAX, -1) 0 L).1 =
      mviF (L.map (CalculateIndexOfMaxR_Sequential f m)) ∧
    -DBL_MAX ≤ (gatherFold f m (-DBL_MAX, -1) 0 L).1 := by
  intro L
  induction L using List.reverseRecOn with
  | nil => intro hne; exact absurd rfl hne
  | append_singleton L l ih =>
    intro _
    rcases eq_or_ne L [] with hL | hL
    · subst hL
      simp only [List.nil_append, List.map_cons, List.map_nil]
      have hg : gatherFold f m (-DBL_MAX, -1) 0 [l] =
          if (CalculateIndexOfMaxR_Sequential f m l).1 > -DBL_MAX then
            ((CalculateIndexOfMaxR_Sequential f m l).1,
             (CalculateIndexOfMaxR_Sequential f m l).2 + 0)
          else (-DBL_MAX, -1) := rfl
      rcases lt_or_le (-DBL_MAX) (CalculateIndexOfMaxR_Sequential f m l).1 with h | h
      · rw [hg, if_pos h]
        refine ⟨?_, ?_, le_of_lt h⟩
        · simp [maxElemIdx, maxElemIdxAux, lenSum]
        · rfl
      · have hst := seq_stick f m l (le_antisymm h (seq_fst_ge f m l))
        rw [hg, if_neg (not_lt.mpr h)]
        refine ⟨?_, ?_, le_refl _⟩
        · simp [maxElemIdx, maxElemIdxAux, lenSum, hst]
        · simp [mviF, maxElemVal, hst]
    · have hrsne : L.map (CalculateIndexOfMaxR_Sequential f m) ≠ [] := by
        simpa [List.map_eq_nil_iff] using hL
      obtain ⟨ihc, ihv, ihb⟩ := ih hL
      rw [List.map_append, List.map_cons, List.map_nil,
        gatherFold_append f m L l (-DBL_MAX, -1) 0,
        maxElemIdx_append _ _ hrsne, mviF_append _ _ hrsne, ← ihv]
      rcases lt_or_le (gatherFold f m (-DBL_MAX, -1) 0 L).1
        (CalculateIndexOfMaxR_Sequential f m l).1 with h | h
      · rw [if_pos h, if_pos h, if_pos h]
        refine ⟨?_, rfl, seq_fst_ge f m l⟩
        rw [List.getD_append_right _ _ _ _ (le_refl _), Nat.sub_self]
        have hlen : (L.map (CalculateIndexOfMaxR_Sequential f m)).length = L.length :=
          List.length_map L _
        rw [hlen, List.take_left]
        simp
      · rw [if_neg (not_lt.mpr h), if_neg (not_lt.mpr h), if_neg (not_lt.mpr h)]
        refine ⟨?_, rfl, ihb⟩
        have hk := maxElemIdx_lt _ hrsne
        rw [List.getD_append _ _ _ _ hk]
        have hkL : maxElemIdx (L.map (CalculateIndexOfMaxR_Sequential f m)) ≤ L.length := by
          rw [← List.length_map L (CalculateIndexOfMaxR_Sequential f m)]
          exact le_of_lt hk
        rw [List.take_append_of_le_length hkL]
        exact ihc

lemma slicesOf_eq_map : ∀ (parts : List ℕ) (y : List Segment),
    (List.range parts.length).map
      (fun p => (y.drop ((parts.take p).sum)).take (parts.getD p 0)) =
    slicesOf y parts := by
  intro parts
  induction parts with
  | nil => intro y; rfl
  | cons a rest ih =>
    intro y
    rw [List.length_cons, List.range_succ_eq_map, List.map_cons, List.map_map, slicesOf,
      List.cons.injEq]
    refine ⟨by simp, ?_⟩
    rw [← ih (y.drop a)]
    apply List.map_congr_left
    intro p _
    simp only [Function.comp_apply, List.take_succ_cons, List.sum_cons,
      List.getD_cons_succ, List.drop_drop]

lemma slicesOf_flatten : ∀ (parts : List ℕ) (y : List Segment), parts.sum = y.length →
    (slicesOf y parts).flatten = y := by
  intro parts
  induction parts with
  | nil =>
    intro y h
    simp only [List.sum_nil] at h
    rw [slicesOf, List.flatten_nil]
    exact (List.length_eq_zero.mp h.symm).symm
  | cons a rest ih =>
    intro y h
    simp only [List.sum_cons] at h
    rw [slicesOf, List.flatten_cons,
      ih (y.drop a) (by simp only [List.length_drop]; omega),
      List.take_append_drop]

lemma slicesOf_length : ∀ (parts : List ℕ) (y : List Segment),
    (slicesOf y parts).length = parts.length := by
  intro parts
  induction parts with
  | nil => intro y; rfl
  | cons a rest ih => intro y; rw [slicesOf, List.length_cons, List.length_cons, ih]

lemma lenSum_take_slicesOf : ∀ (parts : List ℕ) (y : List Segment), parts.sum ≤ y.length →
    ∀ k, lenSum ((slicesOf y parts).take k) = (parts.take k).sum := by
  intro parts
  induction parts with
  | nil => intro y _ k; simp [slicesOf, lenSum]
  | cons a rest ih =>
    intro y hle k
    match k with
    | 0 => rfl
    | j + 1 =>
      rw [slicesOf, List.take_succ_cons, List.take_succ_cons, List.sum_cons]
      have ha : a ≤ y.length := by
        simp only [List.sum_cons] at hle
        omega
      have h2 : rest.sum ≤ (y.drop a).length := by
        simp only [List.sum_cons] at hle
        simp only [List.length_drop]
        omega
      simp only [lenSum, List.map_cons, List.sum_cons]
      rw [List.length_take, Nat.min_eq_left ha]
      have := ih (y.drop a) h2 j
      simp only [lenSum] at this
      rw [this]

lemma map_seq_slices (f : ℚ → ℚ) (m : ℚ) (y : List Segment) (parts : List ℕ) :
    (List.range parts.length).map
      (fun p => CalculateIndexOfMaxR_Sequential f m
        ((y.drop ((parts.take p).sum)).take (parts.getD p 0))) =
    (slicesOf y parts).map (CalculateIndexOfMaxR_Sequential f m) := by
  rw [← slicesOf_eq_map parts y, List.map_map]
  rfl

/-- C1: for every function, every m, every segment collection and every
positive worker count, the coordinator result of the distributed
characteristic selector (gather of per-slice sequential scans, first maximum
by value, winning local index corrected by the GetPrevPartWork
offset of that worker) equals the sequential scan of the whole collection, value and global
index alike. -/
theorem c1_parallel_selector_eq_sequential (f : ℚ → ℚ) (m : ℚ) (y : List Segment)
    (procCount : ℕ) (hp : 1 ≤ procCount) :
    CalculateIndexOfMaxR_Parallel f m y procCount =
      CalculateIndexOfMaxR_Sequential f m y := by
  obtain ⟨dist, hdist⟩ : ∃ d, d = (WorkSplitter.init y.length procCount).m_workDistribution :=
    ⟨_, rfl⟩
  have hsum : dist.sum = y.length := by rw [hdist]; exact init_sum _ _ hp
  have hlen : dist.length = procCount := by rw [hdist]; exact init_length _ _
  have hLne : slicesOf y dist ≠ [] := by
    intro hc
    have h2 := slicesOf_length dist y
    rw [hc] at h2
    simp only [List.length_nil] at h2
    omega
  simp only [CalculateIndexOfMaxR_Parallel, WorkSplitter.GetPrevPartWork,
    WorkSplitter.GetPartWork]
  rw [← hdist, show procCount = dist.length from hlen.symm, map_seq_slices f m y dist]
  set k := maxElemIdx ((slicesOf y dist).map (CalculateIndexOfMaxR_Sequential f m)) with hk
  rw [← lenSum_take_slicesOf dist y (le_of_eq hsum) k]
  obtain ⟨hcorr, -, -⟩ := corr_eq_gather f m (slicesOf y dist) hLne
  rw [hcorr, ← aux_join_eq_gather f m (slicesOf y dist) 0 (-DBL_MAX, -1) (le_refl _),
    slicesOf_flatten dist y hsum]
  rfl

/-- C1, witness: three segments distributed over two workers, f the identity
and m = 2; both selectors return the pair (1/2, 0). -/
theorem c1_witness :
    CalculateIndexOfMaxR_Parallel (fun x => x) 2 [⟨0, 1⟩, ⟨1, 2⟩, ⟨2, 3⟩] 2 =
      CalculateIndexOfMaxR_Sequential (fun x => x) 2 [⟨0, 1⟩, ⟨1, 2⟩, ⟨2, 3⟩] :=
  c1_parallel_selector_eq_sequential (fun x => x) 2 [⟨0, 1⟩, ⟨1, 2⟩, ⟨2, 3⟩] 2 (by norm_num)

lemma Calculate_m_eq (M : ℚ) (hM : 0 ≤ M) :
    Calculate_m M 2 = some (if M = 0 then 1 else 2 * M) := by
  rw [Calculate_m, if_pos ⟨hM, by norm_num⟩]

lemma getD_mem_of_lt {l : List Segment} {k : ℕ} (d : Segment) (h : k < l.length) :
    l.getD k d ∈ l := by
  rw [List.getD_eq_getElem l d h]
  exact List.getElem_mem h

lemma mOf_pos (f : ℚ → ℚ) (y : List Segment) : 0 < mOf f y := by
  rw [mOf]
  split_ifs with h
  · norm_num
  · have := Calculate_M_nonneg f y
    have h2 : 0 < Calculate_M f y := lt_of_le_of_ne this (Ne.symm h)
    linarith

lemma ynOf_interior (f : ℚ → ℚ) (y : List Segment) (k : ℕ) (hk : k < y.length)
    (hbe : ∀ s ∈ y, s.begin < s.«end») :
    (y.getD k segDflt).begin < ynOf f y k ∧ ynOf f y k < (y.getD k segDflt).«end» := by
  have hsmem : y.getD k segDflt ∈ y := getD_mem_of_lt segDflt hk
  have hbek := hbe _ hsmem
  have hM0 : 0 ≤ Calculate_M f y := Calculate_M_nonneg f y
  have hratio := ratioOf_le_Calculate_M f y _ hsmem
  rw [ratioOf_eq f _ hbek] at hratio
  have hyd : 0 < (y.getD k segDflt).«end» - (y.getD k segDflt).begin := sub_pos.mpr hbek
  have habs : |f (y.getD k segDflt).«end» - f (y.getD k segDflt).begin| ≤
      Calculate_M f y * ((y.getD k segDflt).«end» - (y.getD k segDflt).begin) := by
    rw [div_le_iff₀ hyd] at hratio
    exact hratio
  have hmpos := mOf_pos f y
  have hkey : |f (y.getD k segDflt).«end» - f (y.getD k segDflt).begin| <
      mOf f y * ((y.getD k segDflt).«end» - (y.getD k segDflt).begin) := by
    rw [mOf]
    split_ifs with h
    · rw [h, zero_mul] at habs
      have hz : |f (y.getD k segDflt).«end» - f (y.getD k segDflt).begin| = 0 :=
        le_antisymm habs (abs_nonneg _)
      rw [hz, one_mul]
      exact hyd
    · have hMpos : 0 < Calculate_M f y := lt_of_le_of_ne hM0 (Ne.symm h)
      have hprod : 0 < Calculate_M f y *
          ((y.getD k segDflt).«end» - (y.getD k segDflt).begin) := mul_pos hMpos hyd
      nlinarith
  have habs2 := abs_lt.mp hkey
  have h2m : (0:ℚ) < 2 * mOf f y := by linarith
  have hrew : ((y.getD k segDflt).«end» - (y.getD k segDflt).begin) / 2 +
      (f (y.getD k segDflt).«end» - f (y.getD k segDflt).begin) / (2 * mOf f y) =
      (mOf f y * ((y.getD k segDflt).«end» - (y.getD k segDflt).begin) +
        (f (y.getD k segDflt).«end» - f (y.getD k segDflt).begin)) / (2 * mOf f y) := by
    field_simp
    ring
  constructor
  · have hpos : 0 < (mOf f y * ((y.getD k segDflt).«end» - (y.getD k segDflt).begin) +
        (f (y.getD k segDflt).«end» - f (y.getD k segDflt).begin)) / (2 * mOf f y) :=
      div_pos (by linarith [habs2.1]) h2m
    rw [ynOf]
    linarith [hrew, hpos]
  · have hlt2 : (mOf f y * ((y.getD k segDflt).«end» - (y.getD k segDflt).begin) +
        (f (y.getD k segDflt).«end» - f (y.getD k segDflt).begin)) / (2 * mOf f y) <
        (y.getD k segDflt).«end» - (y.getD k segDflt).begin := by
      rw [div_lt_iff₀ h2m]
      nlinarith [habs2.2, mul_pos hmpos hyd]
    rw [ynOf]
    linarith [hrew, hlt2]

lemma GetMinStep_next_shape (f : ℚ → ℚ) (ε : ℚ) (y y2 : List Segment)
    (h : GetMinStep f ε y = .next y2) :
    ∃ k, k < y.length ∧
      ε ≤ (y.getD k segDflt).«end» - (y.getD k segDflt).begin ∧
      y2 = (y ++ [Segment.mk (y.getD k segDflt).begin (ynOf f y k)]).set k
        (Segment.mk (ynOf f y k) (y.getD k segDflt).«end») := by
  have hm : Calculate_m (Calculate_M f y) 2 = some (mOf f y) :=
    Calculate_m_eq _ (Calculate_M_nonneg f y)
  rw [GetMinStep, hm] at h
  simp only at h
  by_cases hcond : 0 ≤ (CalculateIndexOfMaxR_Sequential f (mOf f y) y).2 ∧
      (CalculateIndexOfMaxR_Sequential f (mOf f y) y).2 < (y.length : ℤ)
  · rw [if_pos hcond] at h
    by_cases hlen : (y.getD (CalculateIndexOfMaxR_Sequential f (mOf f y) y).2.toNat
        segDflt).«end» - (y.getD (CalculateIndexOfMaxR_Sequential f (mOf f y) y).2.toNat
        segDflt).begin < ε
    · rw [if_pos hlen] at h
      exact StepResult.noConfusion h
    · rw [if_neg hlen] at h
      refine ⟨(CalculateIndexOfMaxR_Sequential f (mOf f y) y).2.toNat, by omega,
        not_lt.mp hlen, ?_⟩
      injection h with h2
      exact h2.symm
  · rw [if_neg hcond] at h
    exact StepResult.noConfusion h

lemma countP_set (p : Segment → Bool) : ∀ (y : List Segment) (k : ℕ) (v : Segment),
    k < y.length →
    (y.set k v).countP p + (if p (y.getD k segDflt) then 1 else 0) =
      y.countP p + (if p v then 1 else 0) := by
  intro y
  induction y with
  | nil => intro k v h; simp at h
  | cons s rest ih =>
    intro k v h
    match k with
    | 0 =>
      simp only [List.set_cons_zero, List.countP_cons, List.getD_cons_zero]
      split_ifs <;> omega
    | j + 1 =>
      simp only [List.set_cons_succ, List.countP_cons, List.getD_cons_succ]
      have h2 := ih j v (by simpa using Nat.lt_of_succ_lt_succ h)
      split_ifs at h2 ⊢ <;> omega

lemma SegInv_init (a b : ℚ) (hab : a < b) : SegInv a b [Segment.mk a b] := by
  constructor
  · intro s hs
    simp only [List.mem_singleton] at hs
    rw [hs]
    exact hab
  · intro x
    simp [List.countP_cons, List.countP_nil]

lemma split_indicator (x u v w : ℚ) (h1 : u < v) (h2 : v < w) :
    (if u < x ∧ x ≤ w then (1:ℕ) else 0) =
      (if u < x ∧ x ≤ v then (1:ℕ) else 0) + (if v < x ∧ x ≤ w then (1:ℕ) else 0) := by
  by_cases hxv : x ≤ v
  · have hw : ¬ (v < x ∧ x ≤ w) := fun hc => absurd hxv (not_le.mpr hc.1)
    rw [if_neg hw, Nat.add_zero]
    have hiff : (u < x ∧ x ≤ w) ↔ (u < x ∧ x ≤ v) :=
      ⟨fun hc => ⟨hc.1, hxv⟩, fun hc => ⟨hc.1, le_trans hc.2 (le_of_lt h2)⟩⟩
    rw [if_congr hiff rfl rfl]
  · have hx2 : v < x := not_le.mp hxv
    have hA : ¬ (u < x ∧ x ≤ v) := fun hc => absurd hc.2 hxv
    rw [if_neg hA, Nat.zero_add]
    have hiff : (u < x ∧ x ≤ w) ↔ (v < x ∧ x ≤ w) :=
      ⟨fun hc => ⟨hx2, hc.2⟩, fun hc => ⟨lt_trans h1 hx2, hc.2⟩⟩
    rw [if_congr hiff rfl rfl]

lemma SegInv_next (f : ℚ → ℚ) (ε a b : ℚ) (y y2 : List Segment)
    (hinv : SegInv a b y) (h : GetMinStep f ε y = .next y2) :
    SegInv a b y2 ∧ y2.length = y.length + 1 := by
  obtain ⟨k, hk, _, hy2⟩ := GetMinStep_next_shape f ε y y2 h
  obtain ⟨hbe, hcover⟩ := hinv
  obtain ⟨hyn1, hyn2⟩ := ynOf_interior f y k hk hbe
  have hlen2 : y2.length = y.length + 1 := by
    rw [hy2, List.length_set, List.length_append, List.length_cons, List.length_nil]
  refine ⟨⟨?_, ?_⟩, hlen2⟩
  · intro t ht
    rw [hy2] at ht
    rcases List.mem_or_eq_of_mem_set ht with ht2 | ht2
    · rcases List.mem_append.mp ht2 with h3 | h3
      · exact hbe t h3
      · simp only [List.mem_singleton] at h3
        rw [h3]
        exact hyn1
    · rw [ht2]
      exact hyn2
  · intro x
    have hkapp : k < (y ++ [Segment.mk (y.getD k segDflt).begin (ynOf f y k)]).length := by
      rw [List.length_append]
      omega
    have hset := countP_set (fun t => decide (t.begin < x ∧ x ≤ t.«end»))
      (y ++ [Segment.mk (y.getD k segDflt).begin (ynOf f y k)]) k
      (Segment.mk (ynOf f y k) (y.getD k segDflt).«end») hkapp
    rw [List.getD_append _ _ _ _ hk, List.countP_append, List.countP_cons,
      List.countP_nil] at hset
    have hsplit := split_indicator x (y.getD k segDflt).begin (ynOf f y k)
      (y.getD k segDflt).«end» hyn1 hyn2
    have hcov := hcover x
    rw [hy2]
    simp only [decide_eq_true_eq] at hset
    rw [← hcov]
    split_ifs at hset hsplit ⊢ <;> omega

lemma traceN_inv (f : ℚ → ℚ) (ε a b : ℚ) : ∀ (n : ℕ) (y0 y : List Segment),
    SegInv a b y0 → traceN f ε n y0 = some y →
    SegInv a b y ∧ y.length = y0.length + n := by
  intro n
  induction n with
  | zero =>
    intro y0 y hinv ht
    rw [traceN] at ht
    injection ht with ht2
    rw [← ht2]
    exact ⟨hinv, rfl⟩
  | succ n ih =>
    intro y0 y hinv ht
    rw [traceN] at ht
    cases hstep : GetMinStep f ε y0 with
    | next y1 =>
      rw [hstep] at ht
      obtain ⟨hinv1, hlen1⟩ := SegInv_next f ε a b y0 y1 hinv hstep
      obtain ⟨hinv2, hlen2⟩ := ih y1 y hinv1 ht
      exact ⟨hinv2, by omega⟩
    | done v => rw [hstep] at ht; exact Option.noConfusion ht
    | error => rw [hstep] at ht; exact Option.noConfusion ht

/-- C3: started on an interval (a, b) with a < b, every collection reached by
the loop is a partition of the interval: all segments are properly ordered and
each point of (a, b] lies in exactly one segment, and the collection after n
non-terminating iterations has exactly n + 1 segments; moreover every
non-terminating iteration rewrites the collection by splitting exactly one
segment at a strictly interior point yn (the winning segment keeps its end and
its begin advances to yn, a new segment from the old begin to yn is appended),
growing the collection by exactly one segment and never merging or deleting. -/
theorem c3_partition_invariant (f : ℚ → ℚ) (ε a b : ℚ) (hab : a < b) :
    (∀ (n : ℕ) (y : List Segment), traceN f ε n [Segment.mk a b] = some y →
      SegInv a b y ∧ y.length = n + 1) ∧
    (∀ (y y2 : List Segment), (∀ s ∈ y, s.begin < s.«end») →
      GetMinStep f ε y = .next y2 →
      ∃ k, k < y.length ∧
        (y.getD k segDflt).begin < ynOf f y k ∧ ynOf f y k < (y.getD k segDflt).«end» ∧
        y2 = (y ++ [Segment.mk (y.getD k segDflt).begin (ynOf f y k)]).set k
          (Segment.mk (ynOf f y k) (y.getD k segDflt).«end») ∧
        y2.length = y.length + 1) := by
  constructor
  · intro n y ht
    have h := traceN_inv f ε a b n [Segment.mk a b] y (SegInv_init a b hab) ht
    simpa [Nat.add_comm] using h
  · intro y y2 hbe hstep
    obtain ⟨k, hk, _, hy2⟩ := GetMinStep_next_shape f ε y y2 hstep
    obtain ⟨hyn1, hyn2⟩ := ynOf_interior f y k hk hbe
    refine ⟨k, hk, hyn1, hyn2, hy2, ?_⟩
    rw [hy2, List.length_set, List.length_append, List.length_cons, List.length_nil]

/-- C3, witness: one iteration on (0, 1) with the identity function splits the
single segment at 3/4, giving the two-segment partition. -/
theorem c3_witness :
    SegInv 0 1 [Segment.mk (3/4) 1, Segment.mk 0 (3/4)] ∧
    ([Segment.mk ((3:ℚ)/4) 1, Segment.mk (0:ℚ) (3/4)]).length = 1 + 1 :=
  (c3_partition_invariant (fun x => x) (1/10) 0 1 (by norm_num)).1 1
    [Segment.mk (3/4) 1, Segment.mk 0 (3/4)] (by
      norm_num [traceN, GetMinStep, Calculate_m, Calculate_M, calcMStep, ratioOf,
        CalculateIndexOfMaxR_Sequential, CalculateIndexOfMaxR_aux, charR, DBL_MAX, segDflt])

/-- C4, amended: (1) on any iteration whose selector returns a valid index
(this holds whenever the winning characteristic exceeds the -DBL_MAX
sentinel) and whose winning segment is shorter than epsilon, the loop
returns f of the end of that segment; (2) for every a < b and epsilon larger
than b - a, provided the characteristic of the initial segment exceeds
-DBL_MAX, the call converges on iteration 1 returning f(b) (the end of the
winning segment). -/
theorem c4_convergence (f : ℚ → ℚ) (ε : ℚ) :
    (∀ (y : List Segment) (fuel : ℕ),
      0 ≤ (CalculateIndexOfMaxR_Sequential f (mOf f y) y).2 →
      (CalculateIndexOfMaxR_Sequential f (mOf f y) y).2 < (y.length : ℤ) →
      (y.getD (CalculateIndexOfMaxR_Sequential f (mOf f y) y).2.toNat segDflt).«end» -
        (y.getD (CalculateIndexOfMaxR_Sequential f (mOf f y) y).2.toNat segDflt).begin < ε →
      GetMinLoop f ε (fuel + 1) y = .value
        (f (y.getD (CalculateIndexOfMaxR_Sequential f (mOf f y) y).2.toNat
          segDflt).«end»)) ∧
    (∀ a b : ℚ, a < b → b - a < ε →
      -DBL_MAX < charR f (mOf f [Segment.mk a b]) (Segment.mk a b) →
      GetMin f a b ε = .value (f b)) := by
  constructor
  · intro y fuel h1 h2 h3
    have hm : Calculate_m (Calculate_M f y) 2 = some (mOf f y) :=
      Calculate_m_eq _ (Calculate_M_nonneg f y)
    have hstep : GetMinStep f ε y = .done
        (f (y.getD (CalculateIndexOfMaxR_Sequential f (mOf f y) y).2.toNat
          segDflt).«end») := by
      rw [GetMinStep, hm]
      simp only
      rw [if_pos ⟨h1, h2⟩, if_pos h3]
    simp only [GetMinLoop, hstep]
  · intro a b hab hbe hR
    have hm : Calculate_m (Calculate_M f [Segment.mk a b]) 2 =
        some (mOf f [Segment.mk a b]) :=
      Calculate_m_eq _ (Calculate_M_nonneg f [Segment.mk a b])
    have hsel : CalculateIndexOfMaxR_Sequential f (mOf f [Segment.mk a b])
        [Segment.mk a b] =
        (charR f (mOf f [Segment.mk a b]) (Segment.mk a b), 0) := by
      simp only [CalculateIndexOfMaxR_Sequential, CalculateIndexOfMaxR_aux]
      rw [if_pos hR]
    have hstep : GetMinStep f ε [Segment.mk a b] = .done (f b) := by
      rw [GetMinStep, hm]
      simp only
      rw [hsel]
      rw [if_pos (by norm_num : (0:ℤ) ≤ ((charR f (mOf f [Segment.mk a b])
        (Segment.mk a b), (0:ℤ)) : ℚ × ℤ).2 ∧ ((charR f (mOf f [Segment.mk a b])
        (Segment.mk a b), (0:ℤ)) : ℚ × ℤ).2 < (([Segment.mk a b] : List Segment).length : ℤ))]
      norm_num [segDflt, hbe]
    rw [GetMin, show (100000 : ℕ) = 99999 + 1 from rfl]
    simp only [GetMinLoop, hstep]

/-- C4, counterexample to the claim as stated: with the constant function
f = 2^1024 every characteristic is below -DBL_MAX, the selector keeps the
sentinel index -1, and the run on a = 0, b = 1, epsilon = 2 (epsilon larger
than the interval) terminates abnormally on iteration 1 (y.at(-1) throws)
instead of returning f(b) or f(a) = 2^1024. -/
theorem c4_counterexample :
    GetMin (fun _ => (2:ℚ) ^ 1024) 0 1 2 = .thrown ∧
    GetMinResult.thrown ≠ GetMinResult.value ((2:ℚ) ^ 1024) ∧
    (0:ℚ) < 1 ∧ (1:ℚ) - 0 < 2 := by
  have hstep : GetMinStep (fun _ => (2:ℚ) ^ 1024) 2 [Segment.mk 0 1] = .error := by
    norm_num [GetMinStep, Calculate_m, Calculate_M, calcMStep, ratioOf,
      CalculateIndexOfMaxR_Sequential, CalculateIndexOfMaxR_aux, charR, DBL_MAX]
  refine ⟨?_, fun h => GetMinResult.noConfusion h, by norm_num, by norm_num⟩
  rw [GetMin, show (100000 : ℕ) = 99999 + 1 from rfl]
  simp only [GetMinLoop, hstep]

/-- C4, witness for the amended claim: identity function, interval (0, 1),
epsilon 2; the winning characteristic 1/2 exceeds -DBL_MAX and the call
converges on iteration 1 to f(1) = 1; part (1) witnessed on the same
single-segment collection. -/
theorem c4_witness :
    GetMinLoop (fun x => x) 2 1 [Segment.mk 0 1] = .value 1 ∧
    GetMin (fun x => x) 0 1 2 = .value 1 := by
  constructor
  · have h := (c4_convergence (fun x => x) 2).1 [Segment.mk 0 1] 0
      (by norm_num [CalculateIndexOfMaxR_Sequential, CalculateIndexOfMaxR_aux,
        charR, mOf, Calculate_M, calcMStep, ratioOf, DBL_MAX])
      (by norm_num [CalculateIndexOfMaxR_Sequential, CalculateIndexOfMaxR_aux,
        charR, mOf, Calculate_M, calcMStep, ratioOf, DBL_MAX])
      (by norm_num [CalculateIndexOfMaxR_Sequential, CalculateIndexOfMaxR_aux,
        charR, mOf, Calculate_M, calcMStep, ratioOf, DBL_MAX, segDflt])
    rw [h]
    norm_num [CalculateIndexOfMaxR_Sequential, CalculateIndexOfMaxR_aux,
      charR, mOf, Calculate_M, calcMStep, ratioOf, DBL_MAX, segDflt]
  · have h := (c4_convergence (fun x => x) 2).2 0 1 (by norm_num) (by norm_num)
      (by norm_num [charR, mOf, Calculate_M, calcMStep, ratioOf, DBL_MAX])
    rw [h]

/-- C5: the loop returns the NAN sentinel exactly when all 100000 iterations
of the cap execute without converging (every iteration produces a next
state); in particular non-convergence is reported only through this
sentinel, never through an error, and the loop then performs exactly the
100000 capped iterations. -/
theorem c5_exhaustion_iff (f : ℚ → ℚ) (a b ε : ℚ) :
    GetMin f a b ε = .nan ↔
      ∃ yf, traceN f ε 100000 [Segment.mk a b] = some yf := by
  have key : ∀ (n : ℕ) (y : List Segment),
      GetMinLoop f ε n y = .nan ↔ ∃ yf, traceN f ε n y = some yf := by
    intro n
    induction n with
    | zero =>
      intro y
      simp [GetMinLoop, traceN]
    | succ n ih =>
      intro y
      simp only [GetMinLoop, traceN]
      cases hstep : GetMinStep f ε y with
      | next y2 => simpa using ih y2
      | done v => simp
      | error => simp
  rw [GetMin]
  exact key 100000 [Segment.mk a b]
